import Mathlib

/-!
Verification of the LSP message codec (`src/codec.rs`).

The Rust code frames messages as `Content-Length: N\r\n\r\n<payload>` and
incrementally parses incoming bytes with nom 5 streaming combinators.
This file shallowly embeds:

* the UTF-8 byte codec used implicitly by Rust's `String` / `str::from_utf8`
  (payloads are `String`s; the wire buffer `BytesMut` holds raw bytes,
  modelled as `List Nat` with each element < 256 by construction);
* the nom streaming combinators used by `parse_message`
  (`tag`, `digit1`, `crlf`, `char`, `is_not`, `space0`, `opt`, `alt`,
  `tuple`/`delimited`/`terminated`, `map_res`, `length_data`), including
  their `Incomplete`/`Error` behaviour and `Needed` byte counts;
* `LanguageServerCodec::encode` and `::decode`, with the decoder state
  `remaining_msg_bytes` made explicit.

Rust `usize` is modelled as a `Nat` together with the 64-bit overflow check
performed by `str::parse::<usize>` (`USIZE_LIMIT = 2 ^ 64`).
-/

/-- Standard UTF-8 encoding of one unicode scalar value, as produced by
Rust when writing a `String` (and by `write!` in `encode`). -/
def utf8EncodeChar (c : Char) : List Nat :=
  let n := c.toNat
  if n < 0x80 then [n]
  else if n < 0x800 then [0xC0 + n / 0x40, 0x80 + n % 0x40]
  else if n < 0x10000 then
    [0xE0 + n / 0x1000, 0x80 + (n / 0x40) % 0x40, 0x80 + n % 0x40]
  else
    [0xF0 + n / 0x40000, 0x80 + (n / 0x1000) % 0x40, 0x80 + (n / 0x40) % 0x40, 0x80 + n % 0x40]

/-- UTF-8 byte size of a scalar value; agrees with `(utf8EncodeChar c).length`
and with the byte width Rust uses when slicing a `str`. -/
def chSize (c : Char) : Nat :=
  let n := c.toNat
  if n < 0x80 then 1
  else if n < 0x800 then 2
  else if n < 0x10000 then 3
  else 4

/-- UTF-8 encoding of a whole string (Rust `String` → its byte representation). -/
def utf8Encode : List Char → List Nat
  | [] => []
  | c :: cs => utf8EncodeChar c ++ utf8Encode cs

/-- Byte length of a string's UTF-8 encoding (Rust `str::len`). -/
def utf8Len : List Char → Nat
  | [] => 0
  | c :: cs => chSize c + utf8Len cs


/-- Decoding of a single UTF-8 sequence from the front of a byte buffer,
faithful to Rust `str::from_utf8`'s validation table: rejects stray
continuation bytes, overlong forms, surrogates and values above `0x10FFFF`.
Returns the decoded scalar and the remaining bytes. -/
def utf8DecodeOne (l : List Nat) : Option (Char × List Nat) :=
  match l with
  | [] => none
  | b0 :: t =>
    if b0 < 0x80 then some (Char.ofNat b0, t)
    else if b0 < 0xC2 then none
    else if b0 < 0xE0 then
      match t with
      | b1 :: t1 =>
        if 0x80 ≤ b1 ∧ b1 < 0xC0 then
          some (Char.ofNat ((b0 - 0xC0) * 0x40 + (b1 - 0x80)), t1)
        else none
      | [] => none
    else if b0 < 0xF0 then
      match t with
      | b1 :: b2 :: t2 =>
        if (0x80 ≤ b1 ∧ b1 < 0xC0) ∧ (0x80 ≤ b2 ∧ b2 < 0xC0) ∧
            0x800 ≤ (b0 - 0xE0) * 0x1000 + (b1 - 0x80) * 0x40 + (b2 - 0x80) ∧
            ¬ (0xD800 ≤ (b0 - 0xE0) * 0x1000 + (b1 - 0x80) * 0x40 + (b2 - 0x80) ∧
               (b0 - 0xE0) * 0x1000 + (b1 - 0x80) * 0x40 + (b2 - 0x80) < 0xE000) then
          some (Char.ofNat ((b0 - 0xE0) * 0x1000 + (b1 - 0x80) * 0x40 + (b2 - 0x80)), t2)
        else none
      | _ => none
    else if b0 < 0xF5 then
      match t with
      | b1 :: b2 :: b3 :: t3 =>
        if (0x80 ≤ b1 ∧ b1 < 0xC0) ∧ (0x80 ≤ b2 ∧ b2 < 0xC0) ∧ (0x80 ≤ b3 ∧ b3 < 0xC0) ∧
            0x10000 ≤ (b0 - 0xF0) * 0x40000 + (b1 - 0x80) * 0x1000 + (b2 - 0x80) * 0x40 + (b3 - 0x80) ∧
            (b0 - 0xF0) * 0x40000 + (b1 - 0x80) * 0x1000 + (b2 - 0x80) * 0x40 + (b3 - 0x80) < 0x110000 then
          some (Char.ofNat ((b0 - 0xF0) * 0x40000 + (b1 - 0x80) * 0x1000 + (b2 - 0x80) * 0x40 + (b3 - 0x80)), t3)
        else none
      | _ => none
    else none

/-- Fuel-indexed whole-buffer UTF-8 decoding; `fuel` bounds the number of
decoded characters (one byte per character at least, so the buffer length
is always enough fuel). -/
def utf8DecodeAux : Nat → List Nat → Option (List Char)
  | _, [] => some []
  | 0, _ :: _ => none
  | fuel + 1, b0 :: t =>
    match utf8DecodeOne (b0 :: t) with
    | some (c, rest) => (utf8DecodeAux fuel rest).map (fun cs => c :: cs)
    | none => none

/-- Whole-buffer validating UTF-8 decode (Rust `str::from_utf8`): `some`
with the decoded characters iff the bytes are valid UTF-8. -/
def utf8Decode (l : List Nat) : Option (List Char) := utf8DecodeAux l.length l

theorem chSize_pos (c : Char) : 1 ≤ chSize c := by
  unfold chSize
  dsimp only
  by_cases h1 : c.toNat < 128 <;> by_cases h2 : c.toNat < 2048 <;>
    by_cases h3 : c.toNat < 65536 <;> simp [h1, h2, h3]

theorem chSize_le_four (c : Char) : chSize c ≤ 4 := by
  unfold chSize
  dsimp only
  by_cases h1 : c.toNat < 128 <;> by_cases h2 : c.toNat < 2048 <;>
    by_cases h3 : c.toNat < 65536 <;> simp [h1, h2, h3]

theorem length_utf8EncodeChar (c : Char) : (utf8EncodeChar c).length = chSize c := by
  unfold utf8EncodeChar chSize
  dsimp only
  by_cases h1 : c.toNat < 128 <;> by_cases h2 : c.toNat < 2048 <;>
    by_cases h3 : c.toNat < 65536 <;> simp [h1, h2, h3]

theorem utf8Len_append (a b : List Char) : utf8Len (a ++ b) = utf8Len a + utf8Len b := by
  induction a with
  | nil => simp [utf8Len]
  | cons c cs ih => simp [utf8Len, ih]; omega

theorem utf8Encode_append (a b : List Char) :
    utf8Encode (a ++ b) = utf8Encode a ++ utf8Encode b := by
  induction a with
  | nil => simp [utf8Encode]
  | cons c cs ih => simp [utf8Encode, ih]

theorem length_utf8Encode (s : List Char) : (utf8Encode s).length = utf8Len s := by
  induction s with
  | nil => simp [utf8Encode, utf8Len]
  | cons c cs ih => simp [utf8Encode, utf8Len, length_utf8EncodeChar, ih]

theorem char_toNat_valid (c : Char) :
    c.toNat < 0xD800 ∨ (0xDFFF < c.toNat ∧ c.toNat < 0x110000) := by
  rcases c.valid with h | ⟨h1, h2⟩
  · left
    exact h
  · right
    exact ⟨h1, h2⟩

theorem char_toNat_lt (c : Char) : c.toNat < 0x110000 := by
  rcases char_toNat_valid c with h | ⟨_, h⟩
  · omega
  · exact h

theorem toNat_ofNat_valid {n : Nat} (h : Nat.isValidChar n) : (Char.ofNat n).toNat = n := by
  rw [Char.ofNat, dif_pos h]
  simp [Char.ofNatAux, Char.toNat, UInt32.toNat]

theorem utf8DecodeOne_encodeChar (c : Char) (r : List Nat) :
    utf8DecodeOne (utf8EncodeChar c ++ r) = some (c, r) := by
  have hval := char_toNat_valid c
  have hlt := char_toNat_lt c
  unfold utf8EncodeChar
  dsimp only
  by_cases h1 : c.toNat < 0x80
  · rw [if_pos h1]
    show utf8DecodeOne (c.toNat :: r) = _
    unfold utf8DecodeOne
    dsimp only
    rw [if_pos h1, Char.ofNat_toNat]
  · by_cases h2 : c.toNat < 0x800
    · rw [if_neg h1, if_pos h2]
      show utf8DecodeOne (_ :: _ :: r) = _
      unfold utf8DecodeOne
      dsimp only
      rw [if_neg (by omega), if_neg (by omega), if_pos (by omega), if_pos (by omega)]
      have harg : (0xC0 + c.toNat / 0x40 - 0xC0) * 0x40 + (0x80 + c.toNat % 0x40 - 0x80)
          = c.toNat := by omega
      rw [harg, Char.ofNat_toNat]
    · by_cases h3 : c.toNat < 0x10000
      · rw [if_neg h1, if_neg h2, if_pos h3]
        show utf8DecodeOne (_ :: _ :: _ :: r) = _
        unfold utf8DecodeOne
        dsimp only
        rw [if_neg (by omega), if_neg (by omega), if_neg (by omega), if_pos (by omega),
          if_pos (by constructor; · omega
                     constructor; · omega
                     constructor; · omega
                     omega)]
        have harg : (0xE0 + c.toNat / 0x1000 - 0xE0) * 0x1000 +
            (0x80 + c.toNat / 0x40 % 0x40 - 0x80) * 0x40 + (0x80 + c.toNat % 0x40 - 0x80)
            = c.toNat := by omega
        rw [harg, Char.ofNat_toNat]
      · rw [if_neg h1, if_neg h2, if_neg h3]
        show utf8DecodeOne (_ :: _ :: _ :: _ :: r) = _
        unfold utf8DecodeOne
        dsimp only
        rw [if_neg (by omega), if_neg (by omega), if_neg (by omega), if_neg (by omega),
          if_pos (by omega),
          if_pos (by constructor; · omega
                     constructor; · omega
                     constructor; · omega
                     constructor; · omega
                     omega)]
        have harg : (0xF0 + c.toNat / 0x40000 - 0xF0) * 0x40000 +
            (0x80 + c.toNat / 0x1000 % 0x40 - 0x80) * 0x1000 +
            (0x80 + c.toNat / 0x40 % 0x40 - 0x80) * 0x40 + (0x80 + c.toNat % 0x40 - 0x80)
            = c.toNat := by omega
        rw [harg, Char.ofNat_toNat]

theorem encodeChar_ofNat1 {m : Nat} (h : m < 0x80) : utf8EncodeChar (Char.ofNat m) = [m] := by
  have hv : Nat.isValidChar m := Or.inl (by omega)
  unfold utf8EncodeChar
  dsimp only
  rw [toNat_ofNat_valid hv, if_pos h]

theorem encodeChar_ofNat2 {m : Nat} (h1 : 0x80 ≤ m) (h2 : m < 0x800) :
    utf8EncodeChar (Char.ofNat m) = [0xC0 + m / 0x40, 0x80 + m % 0x40] := by
  have hv : Nat.isValidChar m := Or.inl (by omega)
  unfold utf8EncodeChar
  dsimp only
  rw [toNat_ofNat_valid hv, if_neg (by omega), if_pos h2]

theorem encodeChar_ofNat3 {m : Nat} (h1 : 0x800 ≤ m) (h2 : m < 0x10000)
    (hs : ¬ (0xD800 ≤ m ∧ m < 0xE000)) :
    utf8EncodeChar (Char.ofNat m) = [0xE0 + m / 0x1000, 0x80 + m / 0x40 % 0x40, 0x80 + m % 0x40] := by
  have hv : Nat.isValidChar m := by
    rcases Nat.lt_or_ge m 0xD800 with h | h
    · exact Or.inl h
    · exact Or.inr ⟨by omega, by omega⟩
  unfold utf8EncodeChar
  dsimp only
  rw [toNat_ofNat_valid hv, if_neg (by omega), if_neg (by omega), if_pos h2]

theorem encodeChar_ofNat4 {m : Nat} (h1 : 0x10000 ≤ m) (h2 : m < 0x110000) :
    utf8EncodeChar (Char.ofNat m) =
      [0xF0 + m / 0x40000, 0x80 + m / 0x1000 % 0x40, 0x80 + m / 0x40 % 0x40, 0x80 + m % 0x40] := by
  have hv : Nat.isValidChar m := Or.inr ⟨by omega, by omega⟩
  unfold utf8EncodeChar
  dsimp only
  rw [toNat_ofNat_valid hv, if_neg (by omega), if_neg (by omega), if_neg (by omega)]

theorem utf8DecodeOne_inv {l rest : List Nat} {c : Char}
    (h : utf8DecodeOne l = some (c, rest)) : utf8EncodeChar c ++ rest = l := by
  match l with
  | [] => simp [utf8DecodeOne] at h
  | b0 :: t =>
    unfold utf8DecodeOne at h
    dsimp only at h
    by_cases c1 : b0 < 0x80
    · rw [if_pos c1] at h
      obtain ⟨hc, hr⟩ := Prod.mk.injEq .. ▸ Option.some.injEq .. ▸ h
      subst hc hr
      rw [encodeChar_ofNat1 c1]
      rfl
    · rw [if_neg c1] at h
      by_cases c2 : b0 < 0xC2
      · rw [if_pos c2] at h
        cases h
      · rw [if_neg c2] at h
        by_cases c3 : b0 < 0xE0
        · rw [if_pos c3] at h
          match t with
          | [] => cases h
          | b1 :: t1 =>
            dsimp only at h
            by_cases c4 : 0x80 ≤ b1 ∧ b1 < 0xC0
            · rw [if_pos c4] at h
              obtain ⟨hc, hr⟩ := Prod.mk.injEq .. ▸ Option.some.injEq .. ▸ h
              subst hc hr
              rw [encodeChar_ofNat2 (by omega) (by omega)]
              simp only [List.cons_append, List.nil_append, List.cons.injEq]
              refine ⟨by omega, by omega, trivial⟩
            · rw [if_neg c4] at h
              cases h
        · rw [if_neg c3] at h
          by_cases c5 : b0 < 0xF0
          · rw [if_pos c5] at h
            match t with
            | [] => cases h
            | [b1] => cases h
            | b1 :: b2 :: t2 =>
              dsimp only at h
              by_cases c6 : (0x80 ≤ b1 ∧ b1 < 0xC0) ∧ (0x80 ≤ b2 ∧ b2 < 0xC0) ∧
                  0x800 ≤ (b0 - 0xE0) * 0x1000 + (b1 - 0x80) * 0x40 + (b2 - 0x80) ∧
                  ¬ (0xD800 ≤ (b0 - 0xE0) * 0x1000 + (b1 - 0x80) * 0x40 + (b2 - 0x80) ∧
                     (b0 - 0xE0) * 0x1000 + (b1 - 0x80) * 0x40 + (b2 - 0x80) < 0xE000)
              · rw [if_pos c6] at h
                obtain ⟨⟨hb1, hb1'⟩, ⟨hb2, hb2'⟩, hlo, hsur⟩ := c6
                obtain ⟨hc, hr⟩ := Prod.mk.injEq .. ▸ Option.some.injEq .. ▸ h
                subst hc hr
                rw [encodeChar_ofNat3 hlo (by omega) hsur]
                simp only [List.cons_append, List.nil_append, List.cons.injEq]
                refine ⟨by omega, by omega, by omega, trivial⟩
              · rw [if_neg c6] at h
                cases h
          · rw [if_neg c5] at h
            by_cases c7 : b0 < 0xF5
            · rw [if_pos c7] at h
              match t with
              | [] => cases h
              | [b1] => cases h
              | [b1, b2] => cases h
              | b1 :: b2 :: b3 :: t3 =>
                dsimp only at h
                by_cases c8 : (0x80 ≤ b1 ∧ b1 < 0xC0) ∧ (0x80 ≤ b2 ∧ b2 < 0xC0) ∧
                    (0x80 ≤ b3 ∧ b3 < 0xC0) ∧
                    0x10000 ≤ (b0 - 0xF0) * 0x40000 + (b1 - 0x80) * 0x1000 + (b2 - 0x80) * 0x40 + (b3 - 0x80) ∧
                    (b0 - 0xF0) * 0x40000 + (b1 - 0x80) * 0x1000 + (b2 - 0x80) * 0x40 + (b3 - 0x80) < 0x110000
                · rw [if_pos c8] at h
                  obtain ⟨⟨hb1, hb1'⟩, ⟨hb2, hb2'⟩, ⟨hb3, hb3'⟩, hlo, hhi⟩ := c8
                  obtain ⟨hc, hr⟩ := Prod.mk.injEq .. ▸ Option.some.injEq .. ▸ h
                  subst hc hr
                  rw [encodeChar_ofNat4 hlo hhi]
                  simp only [List.cons_append, List.nil_append, List.cons.injEq]
                  refine ⟨by omega, by omega, by omega, by omega, trivial⟩
                · rw [if_neg c8] at h
                  cases h
            · rw [if_neg c7] at h
              cases h

theorem utf8DecodeOne_length {l rest : List Nat} {c : Char}
    (h : utf8DecodeOne l = some (c, rest)) : rest.length < l.length := by
  have hinv := utf8DecodeOne_inv h
  have hp := chSize_pos c
  have hl := length_utf8EncodeChar c
  calc rest.length < (utf8EncodeChar c).length + rest.length := by omega
    _ = (utf8EncodeChar c ++ rest).length := (List.length_append ..).symm
    _ = l.length := by rw [hinv]

theorem utf8DecodeAux_irrel :
    ∀ f1 f2 (l : List Nat), l.length ≤ f1 → l.length ≤ f2 →
      utf8DecodeAux f1 l = utf8DecodeAux f2 l := by
  intro f1
  induction f1 with
  | zero =>
    intro f2 l h1 _
    have : l = [] := List.eq_nil_of_length_eq_zero (by omega)
    subst this
    cases f2 <;> simp [utf8DecodeAux]
  | succ f1' ih =>
    intro f2 l h1 h2
    cases l with
    | nil => cases f2 <;> simp [utf8DecodeAux]
    | cons b t =>
      cases f2 with
      | zero => simp at h2
      | succ f2' =>
        show utf8DecodeAux (f1' + 1) (b :: t) = utf8DecodeAux (f2' + 1) (b :: t)
        rw [utf8DecodeAux, utf8DecodeAux]
        cases hone : utf8DecodeOne (b :: t) with
        | none => rfl
        | some pr =>
          obtain ⟨c, rest⟩ := pr
          have hlen := utf8DecodeOne_length hone
          simp only [List.length_cons] at hlen h1 h2
          simp only
          rw [ih f2' rest (by omega) (by omega)]

theorem utf8Decode_cons (b : Nat) (t : List Nat) :
    utf8Decode (b :: t) =
      match utf8DecodeOne (b :: t) with
      | some (c, rest) => (utf8Decode rest).map (fun cs => c :: cs)
      | none => none := by
  show utf8DecodeAux (b :: t).length (b :: t) = _
  rw [List.length_cons, utf8DecodeAux]
  cases hone : utf8DecodeOne (b :: t) with
  | none => rfl
  | some pr =>
    obtain ⟨c, rest⟩ := pr
    have hlen := utf8DecodeOne_length hone
    simp only [List.length_cons] at hlen
    simp only
    rw [utf8DecodeAux_irrel t.length rest.length rest (by omega) (le_refl _)]
    rfl

theorem utf8Decode_encodeChar_append (c : Char) (r : List Nat) :
    utf8Decode (utf8EncodeChar c ++ r) = (utf8Decode r).map (fun cs => c :: cs) := by
  have hone := utf8DecodeOne_encodeChar c r
  cases he : utf8EncodeChar c with
  | nil =>
    have hsz := length_utf8EncodeChar c
    have hpos := chSize_pos c
    rw [he] at hsz
    simp at hsz
    omega
  | cons b tt =>
    rw [he] at hone
    show utf8Decode ((b :: tt) ++ r) = _
    rw [List.cons_append, utf8Decode_cons]
    rw [List.cons_append] at hone
    rw [hone]

theorem utf8Decode_encode_append (s : List Char) (r : List Nat) :
    utf8Decode (utf8Encode s ++ r) = (utf8Decode r).map (fun cs => s ++ cs) := by
  induction s with
  | nil =>
    show utf8Decode ([] ++ r) = _
    simp
  | cons c cs ih =>
    show utf8Decode (utf8EncodeChar c ++ utf8Encode cs ++ r) = _
    rw [List.append_assoc, utf8Decode_encodeChar_append, ih, Option.map_map]
    rfl

theorem utf8Decode_utf8Encode (s : List Char) : utf8Decode (utf8Encode s) = some s := by
  have h := utf8Decode_encode_append s []
  simp only [List.append_nil] at h
  rw [h]
  show Option.map _ (utf8DecodeAux 0 []) = _
  simp [utf8DecodeAux]

theorem utf8Encode_of_decode : ∀ (l : List Nat) (cs : List Char),
    utf8Decode l = some cs → utf8Encode cs = l := by
  have main : ∀ n (l : List Nat), l.length ≤ n → ∀ cs,
      utf8Decode l = some cs → utf8Encode cs = l := by
    intro n
    induction n with
    | zero =>
      intro l hl cs h
      have : l = [] := List.eq_nil_of_length_eq_zero (by omega)
      subst this
      have : cs = [] := by
        have h' : some [] = some cs := h
        cases h'
        rfl
      subst this
      rfl
    | succ n ih =>
      intro l hl cs h
      cases l with
      | nil =>
        have : cs = [] := by
          have h' : some [] = some cs := h
          cases h'
          rfl
        subst this
        rfl
      | cons b t =>
        rw [utf8Decode_cons] at h
        cases hone : utf8DecodeOne (b :: t) with
        | none =>
          rw [hone] at h
          cases h
        | some pr =>
          obtain ⟨c, rest⟩ := pr
          rw [hone] at h
          simp only at h
          rw [Option.map_eq_some'] at h
          obtain ⟨cs', hd, hcs⟩ := h
          subst hcs
          have hlen := utf8DecodeOne_length hone
          simp only [List.length_cons] at hlen hl
          have henc := ih rest (by omega) cs' hd
          show utf8EncodeChar c ++ utf8Encode cs' = b :: t
          rw [henc, utf8DecodeOne_inv hone]
  intro l cs h
  exact main l.length l (le_refl _) cs h

/-- ASCII character of one decimal digit. -/
def digitChar (d : Nat) : Char := Char.ofNat (48 + d)

/-- Fuel-indexed decimal formatting of a natural number (most significant
digit first), as produced by Rust's `Display` for unsigned integers. -/
def natDigitsAux : Nat → Nat → List Char
  | 0, _ => []
  | fuel + 1, n =>
    if n < 10 then [digitChar n]
    else natDigitsAux fuel (n / 10) ++ [digitChar (n % 10)]

/-- Decimal digit string of `n` (what `write!`'s `{}` prints for `item.len()`). -/
def natDigits (n : Nat) : List Char := natDigitsAux (n + 1) n

/-- Accumulating decimal value of a digit string (the arithmetic performed
by `str::parse::<usize>` on an all-digit input, ignoring overflow). -/
def digitsToNatAux : Nat → List Char → Nat
  | a, [] => a
  | a, c :: cs => digitsToNatAux (10 * a + (c.toNat - 48)) cs

/-- Value of a decimal digit string. -/
def digitsToNat (l : List Char) : Nat := digitsToNatAux 0 l

theorem natDigitsAux_irrel : ∀ f1 f2 n, n < f1 → n < f2 →
    natDigitsAux f1 n = natDigitsAux f2 n := by
  intro f1
  induction f1 with
  | zero => intro f2 n h1 _; omega
  | succ f1' ih =>
    intro f2 n h1 h2
    cases f2 with
    | zero => omega
    | succ f2' =>
      show natDigitsAux (f1' + 1) n = natDigitsAux (f2' + 1) n
      rw [natDigitsAux, natDigitsAux]
      by_cases h : n < 10
      · rw [if_pos h, if_pos h]
      · rw [if_neg h, if_neg h, ih f2' (n / 10) (by omega) (by omega)]

theorem natDigits_step (n : Nat) :
    natDigits n = if n < 10 then [digitChar n]
      else natDigits (n / 10) ++ [digitChar (n % 10)] := by
  show natDigitsAux (n + 1) n = _
  rw [natDigitsAux]
  by_cases h : n < 10
  · rw [if_pos h, if_pos h]
  · rw [if_neg h, if_neg h,
      natDigitsAux_irrel n (n / 10 + 1) (n / 10) (by omega) (by omega)]
    rfl

theorem digitChar_toNat {d : Nat} (h : d < 10) : (digitChar d).toNat = 48 + d := by
  exact toNat_ofNat_valid (Or.inl (by omega))

theorem digitChar_isDigit {d : Nat} (h : d < 10) : (digitChar d).isDigit = true := by
  interval_cases d <;> decide

theorem chSize_digitChar {d : Nat} (h : d < 10) : chSize (digitChar d) = 1 := by
  unfold chSize
  dsimp only
  rw [digitChar_toNat h, if_pos (by omega)]

theorem natDigits_shape : ∀ fuel n, n < fuel → ∀ c, c ∈ natDigitsAux fuel n →
    ∃ d, d < 10 ∧ c = digitChar d := by
  intro fuel
  induction fuel with
  | zero => intro n h _ _; omega
  | succ fuel' ih =>
    intro n h c hc
    rw [natDigitsAux] at hc
    by_cases h10 : n < 10
    · rw [if_pos h10] at hc
      simp at hc
      exact ⟨n, h10, hc⟩
    · rw [if_neg h10] at hc
      rw [List.mem_append] at hc
      rcases hc with hc | hc
      · exact ih (n / 10) (by omega) c hc
      · simp at hc
        exact ⟨n % 10, by omega, hc⟩

theorem natDigits_mem {n : Nat} {c : Char} (hc : c ∈ natDigits n) :
    ∃ d, d < 10 ∧ c = digitChar d :=
  natDigits_shape (n + 1) n (by omega) c hc

theorem natDigits_ne_nil (n : Nat) : natDigits n ≠ [] := by
  rw [natDigits_step]
  by_cases h : n < 10
  · rw [if_pos h]; simp
  · rw [if_neg h]; simp

theorem digitsToNatAux_append (a : Nat) (l1 l2 : List Char) :
    digitsToNatAux a (l1 ++ l2) = digitsToNatAux (digitsToNatAux a l1) l2 := by
  induction l1 generalizing a with
  | nil => rfl
  | cons c cs ih =>
    show digitsToNatAux (10 * a + (c.toNat - 48)) (cs ++ l2) = _
    rw [ih]
    rfl

theorem digitsToNat_natDigits (n : Nat) : digitsToNat (natDigits n) = n := by
  have main : ∀ fuel n, n < fuel → digitsToNat (natDigits n) = n := by
    intro fuel
    induction fuel with
    | zero => intro n h; omega
    | succ fuel' ih =>
      intro n h
      rw [natDigits_step]
      by_cases h10 : n < 10
      · rw [if_pos h10]
        show digitsToNatAux (10 * 0 + ((digitChar n).toNat - 48)) [] = n
        rw [digitChar_toNat h10]
        show 10 * 0 + (48 + n - 48) = n
        omega
      · rw [if_neg h10]
        show digitsToNatAux 0 (natDigits (n / 10) ++ [digitChar (n % 10)]) = n
        rw [digitsToNatAux_append]
        have hrec : digitsToNatAux 0 (natDigits (n / 10)) = n / 10 := ih (n / 10) (by omega)
        rw [hrec]
        show digitsToNatAux (10 * (n / 10) + ((digitChar (n % 10)).toNat - 48)) [] = n
        rw [digitChar_toNat (by omega)]
        show 10 * (n / 10) + (48 + n % 10 - 48) = n
        omega
  exact main (n + 1) n (by omega)

theorem natDigits_isDigit {n : Nat} {c : Char} (hc : c ∈ natDigits n) : c.isDigit = true := by
  obtain ⟨d, hd, rfl⟩ := natDigits_mem hc
  exact digitChar_isDigit hd

theorem natDigits_chSize {n : Nat} {c : Char} (hc : c ∈ natDigits n) : chSize c = 1 := by
  obtain ⟨d, hd, rfl⟩ := natDigits_mem hc
  exact chSize_digitChar hd

theorem utf8Len_natDigits (n : Nat) : utf8Len (natDigits n) = (natDigits n).length := by
  have main : ∀ l : List Char, (∀ c ∈ l, chSize c = 1) → utf8Len l = l.length := by
    intro l hl
    induction l with
    | nil => rfl
    | cons c cs ih =>
      show chSize c + utf8Len cs = cs.length + 1
      rw [hl c (by simp), ih (fun c hc => hl c (by simp [hc]))]
      omega
  exact main _ (fun c hc => natDigits_chSize hc)

/-- nom `ErrorKind` values reachable from the combinators used by
`parse_message` (`Tag`, `Digit`, `CrLf`, `Char`, `IsNot`, `MapRes`). -/
inductive ErrorKind
  | tag
  | digit
  | crlf
  | chr
  | isNot
  | mapRes
  deriving DecidableEq

/-- Result of a nom streaming parser over `&str` input (modelled at the
character level). `incomplete n` is `Err(Err::Incomplete(Needed::Size(n)))`
with `n` a byte count; `err k` is `Err(Err::Error((_, k)))` — the input
slice paired with the `ErrorKind` is discarded by `decode`, so only the
kind is kept, and `Err::Failure` cannot arise because `parse_message` never
uses `cut`. `panicked` marks a Rust panic (slicing a `&str` at a byte index
that is not a character boundary). -/
inductive PResult (α : Type)
  | ok (rest : List Char) (val : α)
  | incomplete (needed : Nat)
  | err (k : ErrorKind)
  | panicked
  deriving DecidableEq

/-- Sequencing of nom parsers (Rust's `?` / tuple chaining): errors,
incompleteness and panics propagate. -/
def PResult.andThen {α β : Type} (r : PResult α) (f : List Char → α → PResult β) : PResult β :=
  match r with
  | .ok rest v => f rest v
  | .incomplete n => .incomplete n
  | .err k => .err k
  | .panicked => .panicked

/-- Char-level "starts with" test. All tags in `parse_message` are ASCII,
so nom's byte-level `Compare` on `&str` coincides with this char-level
comparison (a multi-byte char's lead byte is ≥ 0xC2 and never equals an
ASCII tag byte). -/
def isPre : List Char → List Char → Bool
  | [], _ => true
  | _ :: _, [] => false
  | a :: as, b :: bs => a == b && isPre as bs

/-- nom `bytes::streaming::tag`: consume the literal `t`, report
`Incomplete(Needed::Size(tag bytes − input bytes))` when the input is a
proper prefix of the tag, and `ErrorKind::Tag` on a mismatch. -/
def pTag (t i : List Char) : PResult (List Char) :=
  if isPre t i then .ok (i.drop t.length) t
  else if isPre i t then .incomplete (utf8Len t - utf8Len i)
  else .err .tag

/-- nom `character::streaming::char`: consume exactly the character `c`. -/
def pChar (c : Char) (i : List Char) : PResult Char :=
  match i with
  | [] => .incomplete 1
  | x :: xs => if x = c then .ok xs c else .err .chr

/-- Character list of the literal `"\r\n"`. -/
def crlfChars : List Char := ['\r', '\n']

/-- nom `character::streaming::crlf`: consume `\r\n`; `Needed::Size(2)`
when the input is a proper prefix of it, `ErrorKind::CrLf` on mismatch. -/
def pCrlf (i : List Char) : PResult (List Char) :=
  if isPre crlfChars i then .ok (i.drop 2) crlfChars
  else if isPre i crlfChars then .incomplete 2
  else .err .crlf

/-- nom streaming `split_at_position1(p, k)`: split before the first
character satisfying `p`; `Incomplete(Needed::Size(1))` when no such
character exists (more input could extend the run), error `k` when the
very first character satisfies `p`. -/
def pSplit1 (p : Char → Bool) (k : ErrorKind) (i : List Char) : PResult (List Char) :=
  if (i.dropWhile (fun c => ! p c)).isEmpty then .incomplete 1
  else if (i.takeWhile (fun c => ! p c)).isEmpty then .err k
  else .ok (i.dropWhile (fun c => ! p c)) (i.takeWhile (fun c => ! p c))

/-- nom `character::streaming::digit1`. -/
def pDigit1 (i : List Char) : PResult (List Char) :=
  pSplit1 (fun c => ! c.isDigit) .digit i

/-- nom `bytes::streaming::is_not(";\r")`. -/
def pNoSemiCr (i : List Char) : PResult (List Char) :=
  pSplit1 (fun c => c == ';' || c == '\r') .isNot i

/-- nom `character::streaming::space0` (streaming `split_at_position`,
which reports `Incomplete(Needed::Size(1))` when the whole input is
spaces/tabs, and never errors). -/
def pSpace0 (i : List Char) : PResult (List Char) :=
  if (i.dropWhile (fun c => c == ' ' || c == '\t')).isEmpty then .incomplete 1
  else .ok (i.dropWhile (fun c => c == ' ' || c == '\t')) (i.takeWhile (fun c => c == ' ' || c == '\t'))

/-- nom `combinator::opt`: turn `Err::Error` into `None` without consuming;
`Incomplete` (and `Failure`, impossible here) still propagate. -/
def pOpt {α : Type} (f : List Char → PResult α) (i : List Char) : PResult (Option α) :=
  match f i with
  | .ok rest v => .ok rest (some v)
  | .err _ => .ok i none
  | .incomplete n => .incomplete n
  | .panicked => .panicked

/-- nom `branch::alt` on two parsers: try the second only when the first
returns `Err::Error`; for the default `(&str, ErrorKind)` error type the
reported error is the second parser's. -/
def pAlt2 {α : Type} (f g : List Char → PResult α) (i : List Char) : PResult α :=
  match f i with
  | .err _ => g i
  | r => r

/-- Characters of the literal `"Content-Length: "`. -/
def clChars : List Char := "Content-Length: ".toList

/-- Characters of the literal `"Content-Type:"`. -/
def ctChars : List Char := "Content-Type:".toList

/-- Characters of the literal `"charset="`. -/
def charsetChars : List Char := "charset=".toList

/-- Characters of the literal `"utf-8"`. -/
def utf8DashChars : List Char := "utf-8".toList

/-- Characters of the literal `"utf8"`. -/
def utf8Chars : List Char := "utf8".toList

/-- `delimited(tag("Content-Length: "), digit1, crlf)` — yields the digit
run of the `Content-Length` header. -/
def content_len (i : List Char) : PResult (List Char) :=
  (pTag clChars i).andThen fun i1 _ =>
    (pDigit1 i1).andThen fun i2 ds =>
      (pCrlf i2).andThen fun i3 _ => .ok i3 ds

/-- `tuple((char(';'), space0, tag("charset="), alt((tag("utf-8"), tag("utf8")))))`. -/
def charsetP (i : List Char) : PResult Unit :=
  (pChar ';' i).andThen fun i1 _ =>
    (pSpace0 i1).andThen fun i2 _ =>
      (pTag charsetChars i2).andThen fun i3 _ =>
        (pAlt2 (pTag utf8DashChars) (pTag utf8Chars) i3).andThen fun i4 _ => .ok i4 ()

/-- `tuple((tag("Content-Type:"), is_not(";\r"), opt(charset), crlf))`. -/
def content_type (i : List Char) : PResult Unit :=
  (pTag ctChars i).andThen fun i1 _ =>
    (pNoSemiCr i1).andThen fun i2 _ =>
      (pOpt charsetP i2).andThen fun i3 _ =>
        (pCrlf i3).andThen fun i4 _ => .ok i4 ()

/-- `terminated(terminated(content_len, opt(content_type)), crlf)`. -/
def headerP (i : List Char) : PResult (List Char) :=
  (content_len i).andThen fun i1 ds =>
    (pOpt content_type i1).andThen fun i2 _ =>
      (pCrlf i2).andThen fun i3 _ => .ok i3 ds

/-- Rust `usize` overflow bound for `str::parse::<usize>` (64-bit target). -/
def USIZE_LIMIT : Nat := 2 ^ 64

/-- `map_res(header, |s: &str| s.parse::<usize>())`: the digit run is
re-parsed as a `usize`; an overflowing value makes `parse` fail, which nom
reports as `ErrorKind::MapRes` at the original input. -/
def lengthP (i : List Char) : PResult Nat :=
  match headerP i with
  | .ok rest ds => if digitsToNat ds < USIZE_LIMIT then .ok rest (digitsToNat ds) else .err .mapRes
  | .incomplete n => .incomplete n
  | .err k => .err k
  | .panicked => .panicked

/-- nom's `take_split(count)` on `&str`, which slices the underlying bytes:
`none` models the Rust panic raised when byte index `count` is not a
character boundary of the string. Otherwise returns (consumed, rest). -/
def takeBytes : Nat → List Char → Option (List Char × List Char)
  | 0, l => some ([], l)
  | _ + 1, [] => none
  | n + 1, c :: cs =>
    if chSize c ≤ n + 1 then
      match takeBytes (n + 1 - chSize c) cs with
      | some (a, b) => some (c :: a, b)
      | none => none
    else none

/-- `length_data(length)`: read the declared byte count, report
`Incomplete(Needed::Size(length))` when fewer bytes remain, otherwise
split off exactly `length` bytes (panicking on a non-boundary index). -/
def messageP (i : List Char) : PResult (List Char) :=
  (lengthP i).andThen fun i1 len =>
    if utf8Len i1 < len then .incomplete len
    else
      match takeBytes len i1 with
      | some (payload, rest) => .ok rest payload
      | none => .panicked

/-- `parse_message` from `src/codec.rs`; the final `map(message, |msg|
msg.to_string())` only copies the payload slice, so it is the identity
here. -/
def parse_message (i : List Char) : PResult (List Char) := messageP i

/-- Outcome of one `LanguageServerCodec::decode` call. `noneYet` is
`Ok(None)`, `msg` is `Ok(Some(payload))`, the `err…` variants are the
`Err(ParseError::…)` cases, and `panicked` marks a Rust panic inside the
call. -/
inductive DecodeResult
  | noneYet
  | msg (payload : List Char)
  | errMissingHeader
  | errInvalidLength
  | errInvalidType
  | errUtf8
  | panicked
  deriving DecidableEq

/-- `LanguageServerCodec::decode`: takes the decoder state
(`remaining_msg_bytes`) and the buffer contents (`src`), and returns the
call outcome together with the new state and new buffer contents. -/
def decode (remaining_msg_bytes : Nat) (src : List Nat) :
    DecodeResult × Nat × List Nat :=
  if remaining_msg_bytes > src.length then (.noneYet, remaining_msg_bytes, src)
  else
    match utf8Decode src with
    | none => (.errUtf8, remaining_msg_bytes, src)
    | some string =>
      match parse_message string with
      | .ok remaining message =>
        (.msg message, 0, src.drop (utf8Len string - utf8Len remaining))
      | .incomplete min => (.noneYet, min, src)
      | .err k =>
        match k with
        | .digit => (.errInvalidLength, remaining_msg_bytes, src)
        | .mapRes => (.errInvalidLength, remaining_msg_bytes, src)
        | .chr => (.errInvalidType, remaining_msg_bytes, src)
        | .isNot => (.errInvalidType, remaining_msg_bytes, src)
        | _ => (.errMissingHeader, remaining_msg_bytes, src)
      | .panicked => (.panicked, remaining_msg_bytes, src)

/-- Header-plus-payload character sequence of the frame `encode` writes
for a non-empty payload `s`. -/
def frameChars (s : List Char) : List Char :=
  clChars ++ natDigits (utf8Len s) ++ crlfChars ++ crlfChars ++ s

/-- `LanguageServerCodec::encode`: appends
`Content-Length: {len}\r\n\r\n{item}` to `dst` for a non-empty `item` and
leaves `dst` untouched for an empty one. Writing into a `BytesMut` writer
cannot fail, so the model is total (always `Ok(())`). -/
def encode (item : List Char) (dst : List Nat) : List Nat :=
  if item ≠ [] then dst ++ utf8Encode (frameChars item)
  else dst

/-- Drive the decoder over a sequence of arriving byte chunks: each chunk
is appended to the buffer, then `decode` is called once; collects every
call's outcome and the final state and buffer. -/
def feedChunks (st : Nat) (buf : List Nat) :
    List (List Nat) → List DecodeResult × Nat × List Nat
  | [] => ([], st, buf)
  | c :: cs =>
    let r := decode st (buf ++ c)
    let out := feedChunks r.2.1 r.2.2 cs
    (r.1 :: out.1, out.2.1, out.2.2)

theorem isPre_append_self (a b : List Char) : isPre a (a ++ b) = true := by
  induction a with
  | nil => rfl
  | cons x xs ih => simp [isPre, ih]

theorem isPre_exists {a b : List Char} (h : isPre a b = true) : ∃ t, b = a ++ t := by
  induction a generalizing b with
  | nil => exact ⟨b, rfl⟩
  | cons x xs ih =>
    cases b with
    | nil => simp [isPre] at h
    | cons y ys =>
      rw [isPre, Bool.and_eq_true, beq_iff_eq] at h
      obtain ⟨rfl, h2⟩ := h
      obtain ⟨t, rfl⟩ := ih h2
      exact ⟨t, rfl⟩

theorem isPre_length {a b : List Char} (h : isPre a b = true) : a.length ≤ b.length := by
  obtain ⟨t, rfl⟩ := isPre_exists h
  simp

theorem isPre_antisymm {a b : List Char} (h1 : isPre a b = true) (h2 : isPre b a = true) :
    a = b := by
  obtain ⟨t, rfl⟩ := isPre_exists h1
  have := isPre_length h2
  simp at this
  simp [this]

theorem isPre_mem {a b : List Char} (h : isPre a b = true) {c : Char} (hc : c ∈ a) : c ∈ b := by
  obtain ⟨t, rfl⟩ := isPre_exists h
  exact List.mem_append_left t hc

theorem isPre_append_split {p a b : List Char} (h : isPre p (a ++ b) = true) :
    isPre p a = true ∨ ∃ q, p = a ++ q ∧ isPre q b = true := by
  induction a generalizing p with
  | nil => exact Or.inr ⟨p, rfl, h⟩
  | cons x xs ih =>
    cases p with
    | nil => exact Or.inl rfl
    | cons y ys =>
      rw [List.cons_append, isPre, Bool.and_eq_true, beq_iff_eq] at h
      obtain ⟨rfl, h2⟩ := h
      rcases ih h2 with h3 | ⟨q, rfl, hq⟩
      · exact Or.inl (by simp [isPre, h3])
      · exact Or.inr ⟨q, rfl, hq⟩

theorem isPre_false_of_proper {p t : List Char} (h : isPre p t = true) (hne : p ≠ t) :
    isPre t p = false := by
  cases hf : isPre t p
  · rfl
  · exact absurd (isPre_antisymm h hf) hne

theorem utf8Len_pos_of_ne_nil {l : List Char} (h : l ≠ []) : 1 ≤ utf8Len l := by
  cases l with
  | nil => exact absurd rfl h
  | cons c cs =>
    have := chSize_pos c
    show 1 ≤ chSize c + utf8Len cs
    omega

theorem utf8Len_of_ascii {l : List Char} (h : ∀ c ∈ l, chSize c = 1) :
    utf8Len l = l.length := by
  induction l with
  | nil => rfl
  | cons c cs ih =>
    show chSize c + utf8Len cs = cs.length + 1
    rw [h c (by simp), ih (fun c hc => h c (by simp [hc]))]
    omega

theorem pTag_run (t r : List Char) : pTag t (t ++ r) = .ok r t := by
  unfold pTag
  rw [if_pos (isPre_append_self t r)]
  rw [List.drop_left]

theorem pTag_incomplete {t p : List Char} (h : isPre p t = true) (hne : p ≠ t) :
    pTag t p = .incomplete (utf8Len t - utf8Len p) := by
  unfold pTag
  rw [if_neg (by rw [isPre_false_of_proper h hne]; exact Bool.false_ne_true), if_pos h]

theorem pTag_mismatch {a b : Char} (t i : List Char) (hne : a ≠ b) :
    pTag (a :: t) (b :: i) = .err .tag := by
  unfold pTag
  have hab : (a == b) = false := by
    simp [hne]
  have hba : (b == a) = false := by
    simp [Ne.symm hne]
  have h1 : isPre (a :: t) (b :: i) = false := by
    rw [isPre, hab, Bool.false_and]
  have h2 : isPre (b :: i) (a :: t) = false := by
    rw [isPre, hba, Bool.false_and]
  rw [if_neg (by rw [h1]; exact Bool.false_ne_true), if_neg (by rw [h2]; exact Bool.false_ne_true)]

theorem pCrlf_run (r : List Char) : pCrlf ('\r' :: '\n' :: r) = .ok r crlfChars := by
  unfold pCrlf crlfChars
  rw [if_pos (by exact isPre_append_self ['\r', '\n'] r)]
  rfl

theorem pCrlf_nil : pCrlf [] = .incomplete 2 := by
  unfold pCrlf
  rfl

theorem pCrlf_cr : pCrlf ['\r'] = .incomplete 2 := by
  unfold pCrlf
  rfl

theorem pCrlf_mismatch {c : Char} (r : List Char) (h : c ≠ '\r') :
    pCrlf (c :: r) = .err .crlf := by
  unfold pCrlf crlfChars
  have hcr : ('\r' == c) = false := by
    simp [Ne.symm h]
  have hrc : (c == '\r') = false := by
    simp [h]
  have h1 : isPre ['\r', '\n'] (c :: r) = false := by
    rw [isPre, hcr, Bool.false_and]
  have h2 : isPre (c :: r) ['\r', '\n'] = false := by
    rw [isPre, hrc, Bool.false_and]
  rw [if_neg (by rw [h1]; exact Bool.false_ne_true), if_neg (by rw [h2]; exact Bool.false_ne_true)]

theorem takeWhile_append_all {p : Char → Bool} {l : List Char} (h : ∀ c ∈ l, p c = true) :
    ∀ r, (l ++ r).takeWhile p = l ++ r.takeWhile p := by
  induction l with
  | nil => intro r; rfl
  | cons x xs ih =>
    intro r
    rw [List.cons_append, List.takeWhile_cons, if_pos (h x (by simp)), List.cons_append,
      ih (fun c hc => h c (by simp [hc])) r]

theorem dropWhile_append_all {p : Char → Bool} {l : List Char} (h : ∀ c ∈ l, p c = true) :
    ∀ r, (l ++ r).dropWhile p = r.dropWhile p := by
  induction l with
  | nil => intro r; rfl
  | cons x xs ih =>
    intro r
    rw [List.cons_append, List.dropWhile_cons, if_pos (h x (by simp)),
      ih (fun c hc => h c (by simp [hc])) r]

theorem pSplit1_all {p : Char → Bool} {k : ErrorKind} {l : List Char}
    (h : ∀ c ∈ l, p c = false) : pSplit1 p k l = .incomplete 1 := by
  unfold pSplit1
  have hd : l.dropWhile (fun c => ! p c) = [] := by
    have := dropWhile_append_all (p := fun c => ! p c)
      (l := l) (fun c hc => by show (! p c) = true; rw [h c hc]; rfl) []
    simpa using this
  rw [if_pos (by rw [hd]; rfl)]

theorem pSplit1_split {p : Char → Bool} {k : ErrorKind} {l : List Char} {c0 : Char}
    (hl : ∀ c ∈ l, p c = false) (hc : p c0 = true) (hne : l ≠ []) (r : List Char) :
    pSplit1 p k (l ++ c0 :: r) = .ok (c0 :: r) l := by
  unfold pSplit1
  have hnot : ∀ c ∈ l, (fun c => ! p c) c = true := fun c hc => by
    show (! p c) = true
    rw [hl c hc]
    rfl
  have hd : (l ++ c0 :: r).dropWhile (fun c => ! p c) = c0 :: r := by
    rw [dropWhile_append_all hnot, List.dropWhile_cons, if_neg (by rw [hc]; simp)]
  have ht : (l ++ c0 :: r).takeWhile (fun c => ! p c) = l := by
    rw [takeWhile_append_all hnot, List.takeWhile_cons, if_neg (by rw [hc]; simp)]
    simp
  rw [hd, ht]
  rw [if_neg (by simp), if_neg (by simp [hne])]

theorem pSplit1_err {p : Char → Bool} {k : ErrorKind} {c0 : Char} (r : List Char)
    (hc : p c0 = true) : pSplit1 p k (c0 :: r) = .err k := by
  unfold pSplit1
  have hd : (c0 :: r).dropWhile (fun c => ! p c) = c0 :: r := by
    rw [List.dropWhile_cons, if_neg (by rw [hc]; simp)]
  have ht : (c0 :: r).takeWhile (fun c => ! p c) = [] := by
    rw [List.takeWhile_cons, if_neg (by rw [hc]; simp)]
  rw [hd, ht]
  rfl

theorem takeBytes_exact (a b : List Char) : takeBytes (utf8Len a) (a ++ b) = some (a, b) := by
  induction a with
  | nil =>
    show takeBytes 0 b = some ([], b)
    rw [takeBytes]
  | cons c cs ih =>
    have hpos := chSize_pos c
    obtain ⟨m, hm⟩ : ∃ m, chSize c + utf8Len cs = m + 1 := ⟨chSize c + utf8Len cs - 1, by omega⟩
    show takeBytes (chSize c + utf8Len cs) (c :: (cs ++ b)) = _
    rw [hm, takeBytes, if_pos (by omega)]
    have harg : m + 1 - chSize c = utf8Len cs := by omega
    rw [harg, ih]

theorem takeBytes_split {n : Nat} : ∀ {l a b : List Char}, takeBytes n l = some (a, b) →
    l = a ++ b ∧ utf8Len a = n := by
  induction n using Nat.strong_induction_on with
  | _ n ih =>
    intro l a b h
    match n, l with
    | 0, l =>
      rw [takeBytes] at h
      obtain ⟨rfl, rfl⟩ := Prod.mk.injEq .. ▸ Option.some.injEq .. ▸ h
      exact ⟨rfl, rfl⟩
    | m + 1, [] => rw [takeBytes] at h; cases h
    | m + 1, c :: cs =>
      rw [takeBytes] at h
      by_cases hcs : chSize c ≤ m + 1
      · rw [if_pos hcs] at h
        cases hrec : takeBytes (m + 1 - chSize c) cs with
        | none => rw [hrec] at h; cases h
        | some pr =>
          obtain ⟨a', b'⟩ := pr
          rw [hrec] at h
          simp only at h
          obtain ⟨rfl, rfl⟩ := Prod.mk.injEq .. ▸ Option.some.injEq .. ▸ h
          have hpos := chSize_pos c
          obtain ⟨hl, hlen⟩ := ih (m + 1 - chSize c) (by omega) hrec
          constructor
          · rw [List.cons_append, hl]
          · show chSize c + utf8Len a' = m + 1
            omega
      · rw [if_neg hcs] at h
        cases h

theorem pTag_self (t : List Char) : pTag t t = .ok [] t := by
  have := pTag_run t []
  rwa [List.append_nil] at this

theorem pDigit1_all {l : List Char} (h : ∀ c ∈ l, c.isDigit = true) :
    pDigit1 l = .incomplete 1 := by
  unfold pDigit1
  exact pSplit1_all (fun c hc => by
    show (! c.isDigit) = false
    rw [h c hc]
    rfl)

theorem pDigit1_natDigits (L : Nat) (tail : List Char) :
    pDigit1 (natDigits L ++ '\r' :: tail) = .ok ('\r' :: tail) (natDigits L) := by
  unfold pDigit1
  exact pSplit1_split
    (fun c hc => by
      show (! c.isDigit) = false
      rw [natDigits_isDigit hc]
      rfl)
    (by decide) (natDigits_ne_nil L) tail

theorem content_type_crlf (r : List Char) : content_type ('\r' :: r) = .err .tag := by
  unfold content_type
  have hct : ctChars = 'C' :: "ontent-Type:".toList := by decide
  rw [hct, pTag_mismatch _ _ (by decide)]
  rfl

theorem headerP_frame (s : List Char) :
    headerP (clChars ++ (natDigits (utf8Len s) ++ ('\r' :: '\n' :: '\r' :: '\n' :: s)))
      = .ok s (natDigits (utf8Len s)) := by
  unfold headerP content_len
  rw [pTag_run]
  simp only [PResult.andThen]
  rw [pDigit1_natDigits]
  simp only [PResult.andThen]
  rw [pCrlf_run]
  simp only [PResult.andThen]
  have hopt : pOpt content_type ('\r' :: '\n' :: s) = .ok ('\r' :: '\n' :: s) none := by
    unfold pOpt
    rw [content_type_crlf]
  rw [hopt]
  simp only [PResult.andThen]
  rw [pCrlf_run]

theorem frameChars_eq (s : List Char) :
    frameChars s = clChars ++ (natDigits (utf8Len s) ++ ('\r' :: '\n' :: '\r' :: '\n' :: s)) := by
  unfold frameChars crlfChars
  simp [List.append_assoc]

theorem utf8Len_frame (s : List Char) :
    utf8Len (frameChars s) = 20 + (natDigits (utf8Len s)).length + utf8Len s := by
  unfold frameChars
  simp only [utf8Len_append, utf8Len_natDigits]
  have h1 : utf8Len clChars = 16 := by decide
  have h2 : utf8Len crlfChars = 2 := by decide
  omega

theorem parse_message_frame (s : List Char) (h64 : utf8Len s < USIZE_LIMIT) :
    parse_message (frameChars s) = .ok [] s := by
  unfold parse_message messageP lengthP
  rw [frameChars_eq, headerP_frame]
  simp only
  rw [digitsToNat_natDigits, if_pos h64]
  simp only [PResult.andThen]
  rw [if_neg (by omega)]
  have htb : takeBytes (utf8Len s) s = some (s, []) := by
    have := takeBytes_exact s []
    rwa [List.append_nil] at this
  rw [htb]

theorem decode_of_encode (s : List Char) (h1 : s ≠ []) (h64 : utf8Len s < USIZE_LIMIT) :
    decode 0 (encode s []) = (.msg s, 0, []) := by
  unfold encode
  rw [if_pos h1, List.nil_append]
  unfold decode
  rw [if_neg (by omega)]
  rw [utf8Decode_utf8Encode]
  simp only
  rw [parse_message_frame s h64]
  simp only
  have hdrop : (utf8Encode (frameChars s)).drop (utf8Len (frameChars s) - utf8Len []) = [] := by
    show (utf8Encode (frameChars s)).drop (utf8Len (frameChars s) - 0) = []
    rw [Nat.sub_zero, ← length_utf8Encode, List.drop_length]
  rw [hdrop]

theorem parse_message_pre (s : List Char) (h64 : utf8Len s < USIZE_LIMIT)
    {p : List Char} (hp : isPre p (frameChars s) = true) (hne : p ≠ frameChars s) :
    ∃ n, parse_message p = .incomplete n ∧ n ≤ utf8Len (frameChars s) := by
  have hFB := utf8Len_frame s
  have hndlen : 1 ≤ (natDigits (utf8Len s)).length := by
    cases hnd : natDigits (utf8Len s) with
    | nil => exact absurd hnd (natDigits_ne_nil (utf8Len s))
    | cons a b => simp
  rw [frameChars_eq] at hp hne
  rcases isPre_append_split hp with hc1 | ⟨q, rfl, hq⟩
  · by_cases hpc : p = clChars
    · subst hpc
      refine ⟨1, ?_, by omega⟩
      unfold parse_message messageP lengthP headerP content_len
      rw [pTag_self]
      simp only [PResult.andThen]
      rw [pDigit1_all (by intro c hc; cases hc)]
    · refine ⟨utf8Len clChars - utf8Len p, ?_, ?_⟩
      · unfold parse_message messageP lengthP headerP content_len
        rw [pTag_incomplete hc1 hpc]
        rfl
      · have h16 : utf8Len clChars = 16 := by decide
        omega
  · rcases isPre_append_split hq with hc2 | ⟨r, rfl, hr⟩
    · refine ⟨1, ?_, by omega⟩
      unfold parse_message messageP lengthP headerP content_len
      rw [pTag_run]
      simp only [PResult.andThen]
      rw [pDigit1_all (fun c hc => natDigits_isDigit (isPre_mem hc2 hc))]
    · cases r with
      | nil =>
        refine ⟨1, ?_, by omega⟩
        rw [List.append_nil]
        unfold parse_message messageP lengthP headerP content_len
        rw [pTag_run]
        simp only [PResult.andThen]
        rw [pDigit1_all (fun c hc => natDigits_isDigit hc)]
      | cons c1 r1 =>
        rw [isPre, Bool.and_eq_true, beq_iff_eq] at hr
        obtain ⟨rfl, hr1⟩ := hr
        cases r1 with
        | nil =>
          refine ⟨2, ?_, by omega⟩
          unfold parse_message messageP lengthP headerP content_len
          rw [pTag_run]
          simp only [PResult.andThen]
          rw [pDigit1_natDigits]
          simp only [PResult.andThen]
          rw [pCrlf_cr]
        | cons c2 r2 =>
          rw [isPre, Bool.and_eq_true, beq_iff_eq] at hr1
          obtain ⟨rfl, hr2⟩ := hr1
          cases r2 with
          | nil =>
            refine ⟨13, ?_, by omega⟩
            unfold parse_message messageP lengthP headerP content_len
            rw [pTag_run]
            simp only [PResult.andThen]
            rw [pDigit1_natDigits]
            simp only [PResult.andThen]
            rw [pCrlf_run]
            simp only [PResult.andThen]
            have hopt : pOpt content_type [] = .incomplete 13 := by decide
            rw [hopt]
          | cons c3 r3 =>
            rw [isPre, Bool.and_eq_true, beq_iff_eq] at hr2
            obtain ⟨rfl, hr3⟩ := hr2
            cases r3 with
            | nil =>
              refine ⟨2, ?_, by omega⟩
              unfold parse_message messageP lengthP headerP content_len
              rw [pTag_run]
              simp only [PResult.andThen]
              rw [pDigit1_natDigits]
              simp only [PResult.andThen]
              rw [pCrlf_run]
              simp only [PResult.andThen]
              have hopt : pOpt content_type ['\r'] = .ok ['\r'] none := by
                unfold pOpt
                rw [content_type_crlf]
              rw [hopt]
              simp only [PResult.andThen]
              rw [pCrlf_cr]
            | cons c4 r4 =>
              rw [isPre, Bool.and_eq_true, beq_iff_eq] at hr3
              obtain ⟨rfl, hr4⟩ := hr3
              have hr4ne : r4 ≠ s := by
                intro hr4s
                subst hr4s
                exact hne rfl
              obtain ⟨t, rfl⟩ := isPre_exists hr4
              have htne : t ≠ [] := by
                intro ht
                subst ht
                exact hr4ne (by simp)
              have htpos : 1 ≤ utf8Len t := utf8Len_pos_of_ne_nil htne
              have hlt : utf8Len r4 < utf8Len (r4 ++ t) := by
                rw [utf8Len_append]
                omega
              refine ⟨utf8Len (r4 ++ t), ?_, by omega⟩
              unfold parse_message messageP lengthP headerP content_len
              rw [pTag_run]
              simp only [PResult.andThen]
              rw [pDigit1_natDigits]
              simp only [PResult.andThen]
              rw [pCrlf_run]
              simp only [PResult.andThen]
              have hopt : pOpt content_type ('\r' :: '\n' :: r4) = .ok ('\r' :: '\n' :: r4) none := by
                unfold pOpt
                rw [content_type_crlf]
              rw [hopt]
              simp only [PResult.andThen]
              rw [pCrlf_run]
              simp only [PResult.andThen]
              rw [digitsToNat_natDigits, if_pos h64]
              simp only [PResult.andThen]
              rw [if_pos hlt]

theorem decode_frame (s : List Char) (h64 : utf8Len s < USIZE_LIMIT) (st : Nat)
    (hst : st ≤ utf8Len (frameChars s)) :
    decode st (utf8Encode (frameChars s)) = (.msg s, 0, []) := by
  unfold decode
  rw [if_neg (by rw [length_utf8Encode]; omega)]
  rw [utf8Decode_utf8Encode]
  simp only
  rw [parse_message_frame s h64]
  simp only
  have hdrop : (utf8Encode (frameChars s)).drop (utf8Len (frameChars s) - utf8Len []) = [] := by
    show (utf8Encode (frameChars s)).drop (utf8Len (frameChars s) - 0) = []
    rw [Nat.sub_zero, ← length_utf8Encode, List.drop_length]
  rw [hdrop]

theorem utf8Encode_flatten : ∀ ll : List (List Char),
    (ll.map utf8Encode).flatten = utf8Encode ll.flatten := by
  intro ll
  induction ll with
  | nil => rfl
  | cons x xs ih =>
    rw [List.map_cons, List.flatten_cons, List.flatten_cons, utf8Encode_append, ih]

theorem feedChunks_frame : ∀ (chunks : List (List Char)) (s pfx : List Char) (st : Nat),
    utf8Len s < USIZE_LIMIT →
    (∀ c ∈ chunks, c ≠ []) →
    chunks ≠ [] →
    pfx ++ chunks.flatten = frameChars s →
    st ≤ utf8Len (frameChars s) →
    feedChunks st (utf8Encode pfx) (chunks.map utf8Encode) =
      (List.replicate (chunks.length - 1) DecodeResult.noneYet ++ [DecodeResult.msg s], 0, []) := by
  intro chunks
  induction chunks with
  | nil => intro s pfx st _ _ hne _ _; exact absurd rfl hne
  | cons c cs ih =>
    intro s pfx st h64 hnn _ hflat hst
    cases cs with
    | nil =>
      have hflat' : pfx ++ c = frameChars s := by
        rw [List.flatten_cons, List.flatten_nil, List.append_nil] at hflat
        exact hflat
      rw [List.map_cons, List.map_nil, feedChunks]
      have hbuf : utf8Encode pfx ++ utf8Encode c = utf8Encode (frameChars s) := by
        rw [← utf8Encode_append, hflat']
      rw [hbuf, decode_frame s h64 st hst, feedChunks]
      simp
    | cons c2 cs' =>
      have hc2ne : c2 ≠ [] := hnn c2 (by simp)
      have hproper : (c2 :: cs').flatten ≠ [] := by
        rw [List.flatten_cons]
        intro he
        rcases List.append_eq_nil.mp he with ⟨h1, _⟩
        exact hc2ne h1
      have hflat' : (pfx ++ c) ++ (c2 :: cs').flatten = frameChars s := by
        rw [List.append_assoc, ← List.flatten_cons]
        exact hflat
      have hpre : isPre (pfx ++ c) (frameChars s) = true := by
        rw [← hflat']
        exact isPre_append_self _ _
      have hneq : pfx ++ c ≠ frameChars s := by
        intro he
        have h2 := hflat'
        rw [he] at h2
        have h3 := congrArg List.length h2
        rw [List.length_append] at h3
        have : (c2 :: cs').flatten.length = 0 := by omega
        exact hproper (List.eq_nil_of_length_eq_zero this)
      rw [List.map_cons, feedChunks]
      have hbuf : utf8Encode pfx ++ utf8Encode c = utf8Encode (pfx ++ c) :=
        (utf8Encode_append _ _).symm
      rw [hbuf]
      by_cases hskip : st > (utf8Encode (pfx ++ c)).length
      · have hdec : decode st (utf8Encode (pfx ++ c))
            = (.noneYet, st, utf8Encode (pfx ++ c)) := by
          unfold decode
          rw [if_pos hskip]
        rw [hdec]
        simp only
        rw [ih s (pfx ++ c) st h64 (fun x hx => hnn x (by simp [hx])) (by simp) hflat' hst]
        simp [List.replicate_succ]
      · obtain ⟨n, hparse, hn⟩ := parse_message_pre s h64 hpre hneq
        have hdec : decode st (utf8Encode (pfx ++ c))
            = (.noneYet, n, utf8Encode (pfx ++ c)) := by
          unfold decode
          rw [if_neg hskip]
          rw [utf8Decode_utf8Encode]
          simp only
          rw [hparse]
        rw [hdec]
        simp only
        rw [ih s (pfx ++ c) n h64 (fun x hx => hnn x (by simp [hx])) (by simp) hflat' hn]
        simp [List.replicate_succ]

/-- A parser consumes an initial segment of its input: whenever it returns
`ok rest v`, the input splits as some consumed part followed by `rest`. -/
def ConsumesPre {α : Type} (f : List Char → PResult α) : Prop :=
  ∀ i rest v, f i = .ok rest v → ∃ pre, i = pre ++ rest

theorem andThen_ok {α β : Type} {r : PResult α} {f : List Char → α → PResult β}
    {rest : List Char} {v : β} (h : r.andThen f = .ok rest v) :
    ∃ r1 v1, r = .ok r1 v1 ∧ f r1 v1 = .ok rest v := by
  cases r with
  | ok r1 v1 =>
    refine ⟨r1, v1, rfl, ?_⟩
    simpa [PResult.andThen] using h
  | incomplete n => simp [PResult.andThen] at h
  | err k => simp [PResult.andThen] at h
  | panicked => simp [PResult.andThen] at h

theorem pTag_consumes (t : List Char) : ConsumesPre (pTag t) := by
  intro i rest v h
  unfold pTag at h
  by_cases h1 : isPre t i = true
  · rw [if_pos h1] at h
    obtain ⟨u, rfl⟩ := isPre_exists h1
    obtain ⟨hr, _⟩ := PResult.ok.injEq .. ▸ h
    rw [List.drop_left] at hr
    exact ⟨t, by rw [hr]⟩
  · rw [if_neg h1] at h
    by_cases h2 : isPre i t = true
    · rw [if_pos h2] at h
      cases h
    · rw [if_neg h2] at h
      cases h

theorem pCrlf_consumes : ConsumesPre pCrlf := by
  intro i rest v h
  unfold pCrlf at h
  by_cases h1 : isPre crlfChars i = true
  · rw [if_pos h1] at h
    obtain ⟨u, rfl⟩ := isPre_exists h1
    obtain ⟨hr, _⟩ := PResult.ok.injEq .. ▸ h
    have hdrop : (crlfChars ++ u).drop 2 = u := rfl
    rw [hdrop] at hr
    exact ⟨crlfChars, by rw [hr]⟩
  · rw [if_neg h1] at h
    by_cases h2 : isPre i crlfChars = true
    · rw [if_pos h2] at h
      cases h
    · rw [if_neg h2] at h
      cases h

theorem pChar_consumes (c : Char) : ConsumesPre (pChar c) := by
  intro i rest v h
  unfold pChar at h
  match i with
  | [] => cases h
  | x :: xs =>
    dsimp only at h
    by_cases hx : x = c
    · rw [if_pos hx] at h
      obtain ⟨hr, _⟩ := PResult.ok.injEq .. ▸ h
      exact ⟨[x], by rw [hr]; rfl⟩
    · rw [if_neg hx] at h
      cases h

theorem pSplit1_consumes (p : Char → Bool) (k : ErrorKind) : ConsumesPre (pSplit1 p k) := by
  intro i rest v h
  unfold pSplit1 at h
  by_cases h1 : (i.dropWhile (fun c => ! p c)).isEmpty = true
  · rw [if_pos h1] at h
    cases h
  · rw [if_neg h1] at h
    by_cases h2 : (i.takeWhile (fun c => ! p c)).isEmpty = true
    · rw [if_pos h2] at h
      cases h
    · rw [if_neg h2] at h
      obtain ⟨hr, _⟩ := PResult.ok.injEq .. ▸ h
      refine ⟨i.takeWhile (fun c => ! p c), ?_⟩
      rw [← hr, List.takeWhile_append_dropWhile]

theorem pSpace0_consumes : ConsumesPre pSpace0 := by
  intro i rest v h
  unfold pSpace0 at h
  by_cases h1 : (i.dropWhile (fun c => c == ' ' || c == '\t')).isEmpty = true
  · rw [if_pos h1] at h
    cases h
  · rw [if_neg h1] at h
    obtain ⟨hr, _⟩ := PResult.ok.injEq .. ▸ h
    refine ⟨i.takeWhile (fun c => c == ' ' || c == '\t'), ?_⟩
    rw [← hr, List.takeWhile_append_dropWhile]

theorem pOpt_consumes {α : Type} {f : List Char → PResult α} (hf : ConsumesPre f) :
    ConsumesPre (pOpt f) := by
  intro i rest v h
  unfold pOpt at h
  cases hfi : f i with
  | ok r1 v1 =>
    rw [hfi] at h
    obtain ⟨hr, _⟩ := PResult.ok.injEq .. ▸ h
    subst hr
    exact hf i r1 v1 hfi
  | err k =>
    rw [hfi] at h
    obtain ⟨hr, _⟩ := PResult.ok.injEq .. ▸ h
    exact ⟨[], by rw [hr, List.nil_append]⟩
  | incomplete n =>
    rw [hfi] at h
    cases h
  | panicked =>
    rw [hfi] at h
    cases h

theorem pAlt2_consumes {α : Type} {f g : List Char → PResult α}
    (hf : ConsumesPre f) (hg : ConsumesPre g) : ConsumesPre (pAlt2 f g) := by
  intro i rest v h
  unfold pAlt2 at h
  cases hfi : f i with
  | ok r1 v1 =>
    rw [hfi] at h
    exact hf i rest v (hfi.trans h)
  | err k =>
    rw [hfi] at h
    exact hg i rest v h
  | incomplete n =>
    rw [hfi] at h
    cases h
  | panicked =>
    rw [hfi] at h
    cases h

theorem consume_trans {i i1 i2 p1 p2 : List Char} (h1 : i = p1 ++ i1) (h2 : i1 = p2 ++ i2) :
    ∃ p, i = p ++ i2 :=
  ⟨p1 ++ p2, by rw [h1, h2, List.append_assoc]⟩

theorem content_len_consumes : ConsumesPre content_len := by
  intro i rest v h
  unfold content_len at h
  obtain ⟨i1, v1, h1, h⟩ := andThen_ok h
  obtain ⟨i2, v2, h2, h⟩ := andThen_ok h
  obtain ⟨i3, v3, h3, h⟩ := andThen_ok h
  obtain ⟨hr, _⟩ := PResult.ok.injEq .. ▸ h
  subst hr
  obtain ⟨p1, hp1⟩ := pTag_consumes _ _ _ _ h1
  obtain ⟨p2, hp2⟩ := pSplit1_consumes _ _ _ _ _ h2
  obtain ⟨p3, hp3⟩ := pCrlf_consumes _ _ _ h3
  obtain ⟨p12, hp12⟩ := consume_trans hp1 hp2
  exact consume_trans hp12 hp3

theorem charsetP_consumes : ConsumesPre charsetP := by
  intro i rest v h
  unfold charsetP at h
  obtain ⟨i1, v1, h1, h⟩ := andThen_ok h
  obtain ⟨i2, v2, h2, h⟩ := andThen_ok h
  obtain ⟨i3, v3, h3, h⟩ := andThen_ok h
  obtain ⟨i4, v4, h4, h⟩ := andThen_ok h
  obtain ⟨hr, _⟩ := PResult.ok.injEq .. ▸ h
  subst hr
  obtain ⟨p1, hp1⟩ := pChar_consumes _ _ _ _ h1
  obtain ⟨p2, hp2⟩ := pSpace0_consumes _ _ _ h2
  obtain ⟨p3, hp3⟩ := pTag_consumes _ _ _ _ h3
  obtain ⟨p4, hp4⟩ := pAlt2_consumes (pTag_consumes _) (pTag_consumes _) _ _ _ h4
  obtain ⟨p12, hp12⟩ := consume_trans hp1 hp2
  obtain ⟨p13, hp13⟩ := consume_trans hp12 hp3
  exact consume_trans hp13 hp4

theorem content_type_consumes : ConsumesPre content_type := by
  intro i rest v h
  unfold content_type at h
  obtain ⟨i1, v1, h1, h⟩ := andThen_ok h
  obtain ⟨i2, v2, h2, h⟩ := andThen_ok h
  obtain ⟨i3, v3, h3, h⟩ := andThen_ok h
  obtain ⟨i4, v4, h4, h⟩ := andThen_ok h
  obtain ⟨hr, _⟩ := PResult.ok.injEq .. ▸ h
  subst hr
  obtain ⟨p1, hp1⟩ := pTag_consumes _ _ _ _ h1
  obtain ⟨p2, hp2⟩ := pSplit1_consumes _ _ _ _ _ h2
  obtain ⟨p3, hp3⟩ := pOpt_consumes charsetP_consumes _ _ _ h3
  obtain ⟨p4, hp4⟩ := pCrlf_consumes _ _ _ h4
  obtain ⟨p12, hp12⟩ := consume_trans hp1 hp2
  obtain ⟨p13, hp13⟩ := consume_trans hp12 hp3
  exact consume_trans hp13 hp4

theorem headerP_consumes : ConsumesPre headerP := by
  intro i rest v h
  unfold headerP at h
  obtain ⟨i1, v1, h1, h⟩ := andThen_ok h
  obtain ⟨i2, v2, h2, h⟩ := andThen_ok h
  obtain ⟨i3, v3, h3, h⟩ := andThen_ok h
  obtain ⟨hr, _⟩ := PResult.ok.injEq .. ▸ h
  subst hr
  obtain ⟨p1, hp1⟩ := content_len_consumes _ _ _ h1
  obtain ⟨p2, hp2⟩ := pOpt_consumes content_type_consumes _ _ _ h2
  obtain ⟨p3, hp3⟩ := pCrlf_consumes _ _ _ h3
  obtain ⟨p12, hp12⟩ := consume_trans hp1 hp2
  exact consume_trans hp12 hp3

theorem lengthP_ok {i rest : List Char} {len : Nat} (h : lengthP i = .ok rest len) :
    ∃ pre, i = pre ++ rest := by
  unfold lengthP at h
  cases hh : headerP i with
  | ok r1 ds =>
    rw [hh] at h
    simp only at h
    by_cases hd : digitsToNat ds < USIZE_LIMIT
    · rw [if_pos hd] at h
      obtain ⟨hr, _⟩ := PResult.ok.injEq .. ▸ h
      subst hr
      exact headerP_consumes _ _ _ hh
    · rw [if_neg hd] at h
      cases h
  | incomplete n => rw [hh] at h; cases h
  | err k => rw [hh] at h; cases h
  | panicked => rw [hh] at h; cases h

theorem parse_message_ok_split {i rest payload : List Char}
    (h : parse_message i = .ok rest payload) : ∃ hdr, i = hdr ++ (payload ++ rest) := by
  unfold parse_message messageP at h
  obtain ⟨i1, len, h1, h⟩ := andThen_ok h
  by_cases hlt : utf8Len i1 < len
  · rw [if_pos hlt] at h
    cases h
  · rw [if_neg hlt] at h
    cases htb : takeBytes len i1 with
    | none => rw [htb] at h; cases h
    | some pr =>
      obtain ⟨a, b⟩ := pr
      rw [htb] at h
      simp only at h
      obtain ⟨hr, hv⟩ := PResult.ok.injEq .. ▸ h
      subst hr hv
      obtain ⟨hsplit, _⟩ := takeBytes_split htb
      obtain ⟨hdr, hh⟩ := lengthP_ok h1
      exact ⟨hdr, by rw [hh, hsplit]⟩

theorem decode_buffer_effect (st : Nat) (src : List Nat) :
    match decode st src with
    | (.msg m, st2, src2) => st2 = 0 ∧ ∃ hdr, src = utf8Encode hdr ++ utf8Encode m ++ src2
    | (_, _, src2) => src2 = src := by
  unfold decode
  by_cases hskip : st > src.length
  · rw [if_pos hskip]
  · rw [if_neg hskip]
    cases hdec : utf8Decode src with
    | none => simp only
    | some chars =>
      simp only
      cases hp : parse_message chars with
      | ok rest m =>
        simp only
        refine ⟨by trivial, ?_⟩
        obtain ⟨hdr, hsplit⟩ := parse_message_ok_split hp
        have hsrc : utf8Encode chars = src := utf8Encode_of_decode src chars hdec
        refine ⟨hdr, ?_⟩
        have h1 : src = utf8Encode hdr ++ (utf8Encode m ++ utf8Encode rest) := by
          rw [← hsrc, hsplit, utf8Encode_append, utf8Encode_append]
        have hlen : utf8Len chars = utf8Len hdr + (utf8Len m + utf8Len rest) := by
          rw [hsplit, utf8Len_append, utf8Len_append]
        have hdrop : src.drop (utf8Len chars - utf8Len rest) = utf8Encode rest := by
          rw [h1]
          have heq : utf8Len chars - utf8Len rest
              = (utf8Encode hdr ++ utf8Encode m).length := by
            rw [List.length_append, length_utf8Encode, length_utf8Encode]
            omega
          rw [heq, ← List.append_assoc, List.drop_left]
        rw [hdrop, h1, List.append_assoc]
      | incomplete n => simp only
      | err k =>
        simp only
        cases k <;> simp only
      | panicked => simp only

/-- C1: for every non-empty valid-UTF-8 string `s` (whose byte length fits
in `usize`, as every Rust `String`'s does), encoding `s` into an empty
buffer and then calling `decode` once on that buffer with a fresh
rest-state codec returns `Ok(Some(s))` exactly and consumes the whole
encoded frame, leaving the buffer empty and the codec at rest. -/
theorem c1_roundtrip (s : List Char) (h1 : s ≠ []) (h64 : utf8Len s < USIZE_LIMIT) :
    decode 0 (encode s []) = (.msg s, 0, []) :=
  decode_of_encode s h1 h64

theorem c1_roundtrip_witness :
    (['h', 'i'] : List Char) ≠ [] ∧ utf8Len ['h', 'i'] < USIZE_LIMIT ∧
      decode 0 (encode ['h', 'i'] []) = (.msg ['h', 'i'], 0, []) :=
  ⟨by decide, by decide, c1_roundtrip ['h', 'i'] (by decide) (by decide)⟩

/-- C2 (amended): for a valid encoded frame and every way of splitting its
bytes into nonempty sub-chunks whose boundaries fall on UTF-8 character
boundaries, feeding the chunks to `decode` one at a time yields
`NoMessageYet` on every call whose buffer is still a strict prefix and the
exact payload once, on the final call, returning the codec to rest with an
empty buffer. (The first conjunct checks that the chunks really partition
the bytes `encode` produced.) -/
theorem c2_chunked (s : List Char) (chunks : List (List Char)) (h1 : s ≠ [])
    (h64 : utf8Len s < USIZE_LIMIT) (hne : chunks ≠ [])
    (hnn : chunks.all (fun c => ! c.isEmpty) = true)
    (hsplit : chunks.flatten = frameChars s) :
    (chunks.map utf8Encode).flatten = encode s [] ∧
    feedChunks 0 [] (chunks.map utf8Encode) =
      (List.replicate (chunks.length - 1) DecodeResult.noneYet ++ [DecodeResult.msg s], 0, []) := by
  have hnn' : ∀ c ∈ chunks, c ≠ [] := by
    intro c hc hceq
    have h2 := List.all_eq_true.mp hnn c hc
    subst hceq
    simp at h2
  constructor
  · rw [utf8Encode_flatten, hsplit]
    unfold encode
    rw [if_pos h1, List.nil_append]
  · have h := feedChunks_frame chunks s [] 0 h64 hnn' hne (by rw [List.nil_append]; exact hsplit)
      (by omega)
    simpa [utf8Encode] using h

theorem c2_chunked_witness :
    (['h', 'i'] : List Char) ≠ [] ∧ utf8Len ['h', 'i'] < USIZE_LIMIT ∧
    (["Content-".toList, "Length: 2\r\n\r\nh".toList, "i".toList] : List (List Char)) ≠ [] ∧
    (["Content-".toList, "Length: 2\r\n\r\nh".toList, "i".toList].all (fun c => ! c.isEmpty)) = true ∧
    ["Content-".toList, "Length: 2\r\n\r\nh".toList, "i".toList].flatten = frameChars ['h', 'i'] ∧
    ((["Content-".toList, "Length: 2\r\n\r\nh".toList, "i".toList].map utf8Encode).flatten
        = encode ['h', 'i'] [] ∧
      feedChunks 0 [] (["Content-".toList, "Length: 2\r\n\r\nh".toList, "i".toList].map utf8Encode) =
        (List.replicate 2 DecodeResult.noneYet ++ [DecodeResult.msg ['h', 'i']], 0, [])) :=
  ⟨by decide, by decide, by decide, by decide, by decide,
    c2_chunked ['h', 'i'] ["Content-".toList, "Length: 2\r\n\r\nh".toList, "i".toList]
      (by decide) (by decide) (by decide) (by decide) (by decide)⟩

/-- C2 counterexample: the claim as stated fails when a chunk boundary cuts
inside a multi-byte UTF-8 character of the payload. Splitting the encoded
frame for `"é"` after byte 22 (between the two bytes of `é`) makes the
first call — whose accumulated buffer is a strict prefix of the frame —
return the `Utf8` error instead of `NoMessageYet`. -/
theorem c2_counterexample :
    (encode ['é'] []).take 22 ++ (encode ['é'] []).drop 22 = encode ['é'] [] ∧
    ((encode ['é'] []).take 22).length < (encode ['é'] []).length ∧
    (feedChunks 0 [] [(encode ['é'] []).take 22, (encode ['é'] []).drop 22]).1 =
      [DecodeResult.errUtf8, DecodeResult.msg ['é']] := by
  decide

/-- C3 (amended): `Content-Length: abc\r\n\r\nX` fails with
`InvalidLength`; a frame carrying `Content-Type: text/plain;
charset=latin1` fails with `MissingHeader` (not `InvalidType`: `opt`
swallows every `Err::Error` raised inside the `Content-Type` sub-parser,
so the charset mismatch surfaces as the outer `crlf`'s `CrLf` error, which
`decode` maps to `MissingHeader`); a buffer with no `Content-Length:`
prefix fails with `MissingHeader`. -/
theorem c3_rejections :
    decode 0 (utf8Encode ("Content-Length: abc\r\n\r\nX".toList)) =
      (.errInvalidLength, 0, utf8Encode ("Content-Length: abc\r\n\r\nX".toList)) ∧
    decode 0 (utf8Encode
        ("Content-Length: 1\r\nContent-Type: text/plain; charset=latin1\r\n\r\nX".toList)) =
      (.errMissingHeader, 0, utf8Encode
        ("Content-Length: 1\r\nContent-Type: text/plain; charset=latin1\r\n\r\nX".toList)) ∧
    decode 0 (utf8Encode ("Foo: 3\r\n\r\nabc".toList)) =
      (.errMissingHeader, 0, utf8Encode ("Foo: 3\r\n\r\nabc".toList)) := by
  decide

/-- C3 counterexample: a full frame whose `Content-Type` carries
`charset=latin1` does NOT fail with `InvalidType` as the claim states; it
fails with `MissingHeader`. -/
theorem c3_counterexample :
    (decode 0 (utf8Encode
        ("Content-Length: 1\r\nContent-Type: text/plain; charset=latin1\r\n\r\nX".toList))).1
      ≠ DecodeResult.errInvalidType ∧
    (decode 0 (utf8Encode
        ("Content-Length: 1\r\nContent-Type: text/plain; charset=latin1\r\n\r\nX".toList))).1
      = DecodeResult.errMissingHeader := by
  decide

/-- C4: on a buffer whose `Content-Length` points inside a multi-byte
UTF-8 character of the remaining bytes, `decode` panics (nom's
`take_split` slices the `&str` at a non-character-boundary byte index)
instead of returning a typed result — the model's `panicked` outcome. -/
theorem c4_panic :
    decode 0 (utf8Encode ("Content-Length: 1\r\n\r\né".toList)) =
      (.panicked, 0, utf8Encode ("Content-Length: 1\r\n\r\né".toList)) := by
  decide

/-- C5: `encode` of an empty payload writes nothing; for a non-empty
payload it writes exactly `Content-Length: `, the decimal ASCII digits of
the payload's UTF-8 byte length, CRLF, a blank-line CRLF, then the raw
payload bytes — and nothing else (in particular no `Content-Type`). -/
theorem c5_encode_format (item : List Char) (dst : List Nat) :
    encode [] dst = dst ∧
    (item ≠ [] →
      encode item dst = dst ++ utf8Encode clChars ++ utf8Encode (natDigits (utf8Len item)) ++
        utf8Encode crlfChars ++ utf8Encode crlfChars ++ utf8Encode item ∧
      digitsToNat (natDigits (utf8Len item)) = utf8Len item ∧
      (natDigits (utf8Len item)).all (fun c => c.isDigit) = true) := by
  constructor
  · unfold encode
    rw [if_neg (by simp)]
  · intro h
    refine ⟨?_, digitsToNat_natDigits _, ?_⟩
    · unfold encode
      rw [if_pos h]
      unfold frameChars
      simp [utf8Encode_append, List.append_assoc]
    · rw [List.all_eq_true]
      intro c hc
      exact natDigits_isDigit hc

theorem c5_encode_format_witness :
    encode [] ([10, 20] : List Nat) = [10, 20] ∧
    (encode ['h', 'i'] [10, 20] = [10, 20] ++ utf8Encode clChars ++
        utf8Encode (natDigits (utf8Len ['h', 'i'])) ++ utf8Encode crlfChars ++
        utf8Encode crlfChars ++ utf8Encode ['h', 'i'] ∧
      digitsToNat (natDigits (utf8Len ['h', 'i'])) = utf8Len ['h', 'i'] ∧
      (natDigits (utf8Len ['h', 'i'])).all (fun c => c.isDigit) = true) :=
  ⟨(c5_encode_format ['h', 'i'] [10, 20]).1,
    (c5_encode_format ['h', 'i'] [10, 20]).2 (by decide)⟩

/-- C6 (amended): a hard error does not reset the decoder state: whenever
`decode` returns `MissingHeader`, `InvalidLength`, `InvalidType` or
`Utf8`, `remaining_msg_bytes` is left exactly as it was before the call
(only a successful extraction resets it to 0). -/
theorem c6_err_state (st : Nat) (src : List Nat) :
    match decode st src with
    | (.errMissingHeader, st2, _) => st2 = st
    | (.errInvalidLength, st2, _) => st2 = st
    | (.errInvalidType, st2, _) => st2 = st
    | (.errUtf8, st2, _) => st2 = st
    | _ => True := by
  unfold decode
  by_cases hskip : st > src.length
  · rw [if_pos hskip]
    trivial
  · rw [if_neg hskip]
    cases utf8Decode src with
    | none => trivial
    | some chars =>
      simp only
      cases parse_message chars with
      | ok rest m => trivial
      | incomplete n => trivial
      | err k => cases k <;> trivial
      | panicked => trivial

/-- C6 counterexample: after an incomplete parse sets
`remaining_msg_bytes = 25`, a later call that fails with the `Utf8` error
leaves the state at 25 — it does NOT return the decoder to the rest state
`remaining_msg_bytes = 0` as the claim states. -/
theorem c6_counterexample :
    decode 0 (utf8Encode ("Content-Length: 25\r\n\r\n".toList)) =
      (.noneYet, 25, utf8Encode ("Content-Length: 25\r\n\r\n".toList)) ∧
    decode 25 (utf8Encode ("Content-Length: 25\r\n\r\n".toList) ++ [255, 255, 255]) =
      (.errUtf8, 25, utf8Encode ("Content-Length: 25\r\n\r\n".toList) ++ [255, 255, 255]) ∧
    (25 : Nat) ≠ 0 := by
  decide

/-- C7 (amended): when `decode` skips the parse attempt because the hint
is not yet satisfied (`remaining_msg_bytes` exceeds the buffer length), it
returns `NoMessageYet` leaving both `remaining_msg_bytes` and the buffer
exactly unchanged — the hint is NOT reset to 0. -/
theorem c7_skip (st : Nat) (src : List Nat) (h : st > src.length) :
    decode st src = (.noneYet, st, src) := by
  unfold decode
  rw [if_pos h]

theorem c7_skip_witness :
    5 > ([] : List Nat).length ∧ decode 5 [] = (.noneYet, 5, []) :=
  ⟨by decide, c7_skip 5 [] (by decide)⟩

/-- C7 counterexample: an incomplete parse sets the hint to 25; the next
call (buffer still 22 bytes < 25) takes the skip path and returns
`NoMessageYet` with `remaining_msg_bytes` still 25, not reset to 0 as the
claim states. -/
theorem c7_counterexample :
    decode 0 (utf8Encode ("Content-Length: 25\r\n\r\n".toList)) =
      (.noneYet, 25, utf8Encode ("Content-Length: 25\r\n\r\n".toList)) ∧
    decode 25 (utf8Encode ("Content-Length: 25\r\n\r\n".toList)) =
      (.noneYet, 25, utf8Encode ("Content-Length: 25\r\n\r\n".toList)) ∧
    (25 : Nat) ≠ 0 := by
  decide

/-- C8: `decode` mutates the buffer only on success: when it returns
`Ok(Some(payload))` it has removed exactly the consumed frame's bytes
(header bytes plus payload bytes) from the front of the buffer (and reset
the state); on `Ok(None)` or any error the buffer is byte-for-byte
unchanged. -/
theorem c8_buffer_effect (st : Nat) (src : List Nat) :
    match decode st src with
    | (.msg m, st2, src2) => st2 = 0 ∧ ∃ hdr, src = utf8Encode hdr ++ utf8Encode m ++ src2
    | (_, _, src2) => src2 = src :=
  decode_buffer_effect st src

/-- C9: a frame declaring a zero-length payload is accepted: on a
rest-state decoder, a buffer holding exactly `Content-Length: 0\r\n\r\n`
returns `Ok(Some(""))` and consumes the entire header, even though
`encode` never produces such a frame (it writes nothing for `""`). -/
theorem c9_zero_length :
    decode 0 (utf8Encode ("Content-Length: 0\r\n\r\n".toList)) = (.msg [], 0, []) ∧
    encode [] [] = [] := by
  decide

/-- C10: `encode` only appends: for every payload and prior destination
contents, the bytes already present are unchanged and the frame (empty for
an empty payload) is written strictly after them. -/
theorem c10_encode_appends (item : List Char) (dst : List Nat) :
    encode item dst = dst ++ encode item [] ∧ encode [] dst = dst := by
  constructor
  · unfold encode
    by_cases h : item ≠ []
    · rw [if_pos h, if_pos h, List.nil_append]
    · rw [if_neg h, if_neg h, List.append_nil]
  · unfold encode
    rw [if_neg (by simp)]
